import Mathlib

/-!
Verification of the Debian-Download-Manager core against its specification.

Each Rust function relevant to the checked properties is shallowly embedded
as an executable Lean definition: `u64`/`usize` values become `Nat` (the
source arithmetic never overflows on the inputs considered, and saturating
operations are modelled explicitly), `i64` becomes `Int`, `Option<T>`
becomes `Option`, `Result<T, E>` becomes `Except`, and `Duration` becomes a
nanosecond count with explicit saturation at `Duration::MAX`.
-/

namespace Ddm

/-! ## Segmenter: `segmenter/range.rs` -/

/-- A single segment: byte range [start, end) (half-open). -/
structure Segment where
  start : Nat
  stop : Nat
deriving DecidableEq, Repr

/-- `Segment::len`: `end.saturating_sub(start)`. -/
def Segment.len (s : Segment) : Nat := s.stop - s.start

/-- Loop body of `plan_segments`: iteration index `i`, remaining iterations
`j`, current `offset`. Mirrors `for i in 0..segment_count { ... }`. -/
def planAux (total_size base remainder : Nat) : Nat → Nat → Nat → List Segment
  | _, 0, _ => []
  | i, j + 1, offset =>
    let len := base + if i < remainder then 1 else 0
    let e := min (offset + len) total_size
    { start := offset, stop := e } :: planAux total_size base remainder (i + 1) j e

/-- `plan_segments(total_size, segment_count)` from `segmenter/range.rs`. -/
def plan_segments (total_size segment_count : Nat) : List Segment :=
  if total_size = 0 ∨ segment_count = 0 then []
  else
    planAux total_size (total_size / segment_count) (total_size % segment_count)
      0 segment_count 0

/-- Offset of segment `t` in the plan: `base * t + min t rem`. -/
def segOffset (base rem t : Nat) : Nat := base * t + min t rem

theorem segOffset_zero (base rem : Nat) : segOffset base rem 0 = 0 := by
  simp [segOffset]

theorem segOffset_succ (base rem i : Nat) :
    segOffset base rem (i + 1) =
      segOffset base rem i + (base + if i < rem then 1 else 0) := by
  unfold segOffset
  rcases Nat.lt_or_ge i rem with h | h
  · rw [Nat.min_eq_left (Nat.le_of_lt h), Nat.min_eq_left h, if_pos h,
      Nat.mul_succ]
    omega
  · rw [Nat.min_eq_right h, Nat.min_eq_right (Nat.le_succ_of_le h),
      if_neg (Nat.not_lt.mpr h)]
    ring

theorem segOffset_le (base rem k N : Nat) (hN : base * k + rem = N) {t : Nat}
    (ht : t ≤ k) : segOffset base rem t ≤ N := by
  calc segOffset base rem t = base * t + min t rem := rfl
    _ ≤ base * k + rem :=
        Nat.add_le_add (Nat.mul_le_mul_left base ht) (Nat.min_le_right t rem)
    _ = N := hN

theorem segOffset_last (base rem k N : Nat) (hN : base * k + rem = N)
    (hrem : rem ≤ k) : segOffset base rem k = N := by
  unfold segOffset
  rw [Nat.min_eq_right hrem, hN]

/-- Closed form for the planning loop. -/
theorem planAux_closed (N base rem k : Nat) (hN : base * k + rem = N) :
    ∀ j i, i + j ≤ k →
      planAux N base rem i j (segOffset base rem i) =
        (List.range j).map (fun m =>
          { start := segOffset base rem (i + m),
            stop := segOffset base rem (i + m + 1) }) := by
  intro j
  induction j with
  | zero => intro i _; simp [planAux]
  | succ j ih =>
    intro i hik
    have hi1 : i + 1 + j ≤ k := by omega
    have hstep : min (segOffset base rem i + (base + if i < rem then 1 else 0)) N
        = segOffset base rem (i + 1) := by
      rw [← segOffset_succ]
      exact Nat.min_eq_left (segOffset_le base rem k N hN (by omega))
    rw [List.range_succ_eq_map]
    simp only [planAux, List.map_cons, List.map_map]
    refine List.cons_eq_cons.mpr ⟨?_, ?_⟩
    · simp only [hstep, Nat.add_zero]
    · rw [hstep, ih (i + 1) hi1]
      apply List.map_congr_left
      intro m _
      simp only [Function.comp_apply]
      refine congrArg₂ Segment.mk ?_ ?_ <;> congr 1 <;> omega

/-- Closed form of `plan_segments` for positive inputs. -/
theorem plan_segments_closed (N k : Nat) (hN : 0 < N) (hk : 0 < k) :
    plan_segments N k =
      (List.range k).map (fun m =>
        { start := segOffset (N / k) (N % k) m,
          stop := segOffset (N / k) (N % k) (m + 1) }) := by
  unfold plan_segments
  rw [if_neg (by omega)]
  have hdm : (N / k) * k + N % k = N := by
    rw [Nat.mul_comm]; exact Nat.div_add_mod N k
  have := planAux_closed N (N / k) (N % k) k hdm k 0 (by omega)
  rw [segOffset_zero] at this
  rw [this]
  simp

theorem sum_segLen (base rem : Nat) : ∀ k : Nat,
    ((List.range k).map
      (fun m => segOffset base rem (m + 1) - segOffset base rem m)).sum
      = segOffset base rem k := by
  intro k
  induction k with
  | zero => simp [segOffset]
  | succ k ih =>
    rw [List.range_succ]
    simp only [List.map_append, List.map_cons, List.map_nil, List.sum_append,
      List.sum_cons, List.sum_nil, ih]
    have := segOffset_succ base rem k
    omega

/-- C1: for `N > 0` and `k > 0`, `plan_segments(N, k)` returns exactly `k`
segments that are contiguous and ordered (first starts at 0, each starts
where the previous ends, the last ends at `N`), whose lengths sum to `N`,
whose sizes differ by at most 1, with the first `N mod k` segments one byte
larger; and the plan is empty whenever `N = 0` or `k = 0`. -/
theorem plan_segments_correct (N k : Nat) (hN : 0 < N) (hk : 0 < k) :
    (plan_segments N k).length = k ∧
    (∀ h : 0 < (plan_segments N k).length,
        ((plan_segments N k).get ⟨0, h⟩).start = 0) ∧
    (∀ i (hi : i + 1 < (plan_segments N k).length),
        ((plan_segments N k).get ⟨i, Nat.lt_of_succ_lt hi⟩).stop =
          ((plan_segments N k).get ⟨i + 1, hi⟩).start) ∧
    (∀ h : plan_segments N k ≠ [], ((plan_segments N k).getLast h).stop = N) ∧
    ((plan_segments N k).map Segment.len).sum = N ∧
    (∀ i (hi : i < (plan_segments N k).length),
        ((plan_segments N k).get ⟨i, hi⟩).len =
          N / k + if i < N % k then 1 else 0) ∧
    (∀ i j (hi : i < (plan_segments N k).length)
        (hj : j < (plan_segments N k).length),
        ((plan_segments N k).get ⟨i, hi⟩).len ≤
          ((plan_segments N k).get ⟨j, hj⟩).len + 1) ∧
    plan_segments 0 k = [] ∧ plan_segments N 0 = [] := by
  have hc := plan_segments_closed N k hN hk
  have hdm : (N / k) * k + N % k = N := by
    rw [Nat.mul_comm]; exact Nat.div_add_mod N k
  have hrem : N % k ≤ k := Nat.le_of_lt (Nat.mod_lt N hk)
  have hlen : (plan_segments N k).length = k := by rw [hc]; simp
  have hget : ∀ i (hi : i < (plan_segments N k).length),
      (plan_segments N k).get ⟨i, hi⟩ =
        { start := segOffset (N / k) (N % k) i,
          stop := segOffset (N / k) (N % k) (i + 1) } := by
    intro i hi
    simp only [hc, List.get_eq_getElem, List.getElem_map, List.getElem_range]
  have hseglen : ∀ i (hi : i < (plan_segments N k).length),
      ((plan_segments N k).get ⟨i, hi⟩).len =
        N / k + if i < N % k then 1 else 0 := by
    intro i hi
    rw [hget i hi]
    show segOffset (N / k) (N % k) (i + 1) - segOffset (N / k) (N % k) i = _
    rw [segOffset_succ, Nat.add_sub_cancel_left]
  refine ⟨hlen, ?_, ?_, ?_, ?_, hseglen, ?_, ?_, ?_⟩
  · intro h
    rw [hget 0 h]
    simp [segOffset]
  · intro i hi
    rw [hget i (Nat.lt_of_succ_lt hi), hget (i + 1) hi]
  · intro h
    have hk' : 0 < (plan_segments N k).length := by
      cases hnil : plan_segments N k with
      | nil => exact absurd hnil h
      | cons a l => simp [hnil]
    have hlast := hget ((plan_segments N k).length - 1) (by omega)
    rw [List.get_eq_getElem] at hlast
    rw [List.getLast_eq_getElem, hlast]
    show segOffset (N / k) (N % k) ((plan_segments N k).length - 1 + 1) = N
    have : (plan_segments N k).length - 1 + 1 = k := by omega
    rw [this]
    exact segOffset_last (N / k) (N % k) k N hdm hrem
  · rw [hc, List.map_map]
    have : (Segment.len ∘ fun m =>
        ({ start := segOffset (N / k) (N % k) m,
           stop := segOffset (N / k) (N % k) (m + 1) } : Segment)) =
        fun m => segOffset (N / k) (N % k) (m + 1) - segOffset (N / k) (N % k) m := by
      funext m; rfl
    rw [this, sum_segLen]
    exact segOffset_last (N / k) (N % k) k N hdm hrem
  · intro i j hi hj
    rw [hseglen i hi, hseglen j hj]
    split <;> split <;> omega
  · simp [plan_segments]
  · simp [plan_segments]

/-- Witness for C1 at `N = 10`, `k = 4`. -/
theorem plan_segments_correct_witness :
    (plan_segments 10 4).length = 4 ∧
    ((plan_segments 10 4).map Segment.len).sum = 10 := by
  have h := plan_segments_correct 10 4 (by decide) (by decide)
  exact ⟨h.1, h.2.2.2.2.1⟩

/-- C8 counterexample: for total size 1 and segment count 4 the plan has 4
segments — more than `min 1 4` — and contains a zero-length segment, so the
planner does produce segments with `start = end`. -/
theorem plan_segments_zero_length_cex :
    (plan_segments 1 4).length = 4 ∧
    ¬ (plan_segments 1 4).length ≤ min 1 4 ∧
    ∃ s ∈ plan_segments 1 4, s.len = 0 := by decide

/-- C8 amended: every planned segment satisfies `start ≤ end`; for `N ≥ 1`
and `k ≥ 1` the plan has exactly `k` segments, and the segment at index `i`
is non-empty exactly when `i < min N k` (so exactly `min N k` segments are
non-empty and the zero-length ones trail at the end); in particular for
total size 1 and segment count 4 the plan is one segment of size 1 followed
by three zero-length segments. -/
theorem plan_segments_min_nonempty (N k : Nat) (hN : 0 < N) (hk : 0 < k) :
    (plan_segments N k).length = k ∧
    (∀ s ∈ plan_segments N k, s.start ≤ s.stop) ∧
    (∀ i (hi : i < (plan_segments N k).length),
        (((plan_segments N k).get ⟨i, hi⟩).len ≠ 0 ↔ i < min N k)) ∧
    plan_segments 1 4 =
      [{ start := 0, stop := 1 }, { start := 1, stop := 1 },
       { start := 1, stop := 1 }, { start := 1, stop := 1 }] := by
  have hc := plan_segments_closed N k hN hk
  have hlen : (plan_segments N k).length = k := by rw [hc]; simp
  refine ⟨hlen, ?_, ?_, by decide⟩
  · intro s hs
    rw [hc] at hs
    obtain ⟨m, _, hm⟩ := List.mem_map.mp hs
    rw [← hm]
    show segOffset (N / k) (N % k) m ≤ segOffset (N / k) (N % k) (m + 1)
    rw [segOffset_succ]
    exact Nat.le_add_right _ _
  · intro i hi
    have hik : i < k := by omega
    have hg : (plan_segments N k).get ⟨i, hi⟩ =
        { start := segOffset (N / k) (N % k) i,
          stop := segOffset (N / k) (N % k) (i + 1) } := by
      simp only [hc, List.get_eq_getElem, List.getElem_map, List.getElem_range]
    rw [hg]
    show segOffset (N / k) (N % k) (i + 1) - segOffset (N / k) (N % k) i ≠ 0
      ↔ i < min N k
    rw [segOffset_succ, Nat.add_sub_cancel_left]
    rcases Nat.eq_zero_or_pos (N / k) with hq | hq
    · have hdm := Nat.div_add_mod N k
      have hmod : N % k < k := Nat.mod_lt N hk
      rw [hq, Nat.mul_zero, Nat.zero_add] at hdm
      rw [hq, hdm]
      rw [hdm] at hmod
      split <;> omega
    · have hkN : k ≤ N := by
        by_contra hlt
        push_neg at hlt
        rw [Nat.div_eq_of_lt hlt] at hq
        omega
      split <;> omega

/-- Witness for the amended C8 at `N = 1`, `k = 4`, index 1 (a zero-length
trailing segment). -/
theorem plan_segments_min_nonempty_witness :
    (plan_segments 1 4).length = 4 ∧
    ¬ (((plan_segments 1 4).get ⟨1, by decide⟩).len ≠ 0) := by
  have h := plan_segments_min_nonempty 1 4 (by decide) (by decide)
  refine ⟨h.1, ?_⟩
  have h2 := (h.2.2.1 1 (by decide))
  intro hne
  exact absurd (h2.mp hne) (by decide)

/-! ## Segment bitmap: `segmenter/bitmap.rs` -/

/-- Segment completion bitmap for resume: one bit per segment
(LSB = segment 0). `bytes` models the `Vec<u8>`; each entry is a byte
value (only its low 8 bits are ever inspected). -/
structure SegmentBitmap where
  bytes : List Nat
deriving DecidableEq, Repr

namespace SegmentBitmap

/-- `SegmentBitmap::new`. -/
def new (segment_count : Nat) : SegmentBitmap :=
  ⟨List.replicate ((segment_count + 7) / 8) 0⟩

/-- `SegmentBitmap::from_bytes`: allocate `len = ⌈n/8⌉` zero bytes, copy the
first `min(bytes.len, len)` input bytes (extra input ignored, missing bytes
stay 0). -/
def from_bytes (bytes : List Nat) (segment_count : Nat) : SegmentBitmap :=
  ⟨bytes.take (min bytes.length ((segment_count + 7) / 8)) ++
    List.replicate
      ((segment_count + 7) / 8 - min bytes.length ((segment_count + 7) / 8)) 0⟩

/-- `SegmentBitmap::to_bytes`: `self.bytes.get(..len).unwrap_or(&self.bytes)`
with `len = ⌈n/8⌉`. -/
def to_bytes (b : SegmentBitmap) (segment_count : Nat) : List Nat :=
  if (segment_count + 7) / 8 ≤ b.bytes.length then
    b.bytes.take ((segment_count + 7) / 8)
  else b.bytes

/-- `SegmentBitmap::set_completed` (resize with zeros, then `|= 1 << bit`). -/
def set_completed (b : SegmentBitmap) (index : Nat) : SegmentBitmap :=
  let byte_idx := index / 8
  let bit := index % 8
  let bytes :=
    if b.bytes.length ≤ byte_idx then
      b.bytes ++ List.replicate (byte_idx + 1 - b.bytes.length) 0
    else b.bytes
  ⟨bytes.set byte_idx (bytes.getD byte_idx 0 ||| (1 <<< bit))⟩

/-- `SegmentBitmap::is_completed`: `(b & (1 << bit)) != 0`, out of range is
`false`. -/
def is_completed (b : SegmentBitmap) (index : Nat) : Bool :=
  match b.bytes[index / 8]? with
  | some v => decide (v &&& (1 <<< (index % 8)) ≠ 0)
  | none => false

/-- Loop of `SegmentBitmap::all_completed` over `bytes` with index `i`. -/
def allCompletedAux (full rem : Nat) : List Nat → Nat → Bool
  | [], _ => true
  | b :: rest, i =>
    if i < full then
      decide (b &&& 255 = 255) && allCompletedAux full rem rest (i + 1)
    else if i = full ∧ 0 < rem then
      decide (b &&& ((1 <<< rem) - 1) = (1 <<< rem) - 1) &&
        allCompletedAux full rem rest (i + 1)
    else true

/-- `SegmentBitmap::all_completed`. -/
def all_completed (b : SegmentBitmap) (segment_count : Nat) : Bool :=
  if segment_count = 0 then true
  else
    allCompletedAux (segment_count / 8) (segment_count % 8) b.bytes 0 &&
      decide ((segment_count + 7) / 8 ≤ b.bytes.length)

end SegmentBitmap

theorem land_two_pow_ne_zero (v b : Nat) :
    (v &&& (1 <<< b) ≠ 0) ↔ v.testBit b := by
  rw [Nat.shiftLeft_eq, Nat.one_mul, Nat.and_two_pow]
  cases h : v.testBit b <;> simp [h]

theorem land_mask_eq_mask (v r : Nat) :
    v &&& (2 ^ r - 1) = 2 ^ r - 1 ↔ ∀ j < r, v.testBit j := by
  constructor
  · intro h j hj
    have := congrArg (fun x => Nat.testBit x j) h
    simpa [Nat.testBit_and, Nat.testBit_two_pow_sub_one, hj] using this
  · intro h
    apply Nat.eq_of_testBit_eq
    intro j
    rw [Nat.testBit_and, Nat.testBit_two_pow_sub_one]
    by_cases hj : j < r
    · simp [hj, h j hj]
    · simp [hj]

theorem is_completed_iff (b : SegmentBitmap) (i : Nat) :
    b.is_completed i = true ↔
      ∃ v, b.bytes[i / 8]? = some v ∧ v.testBit (i % 8) = true := by
  unfold SegmentBitmap.is_completed
  cases h : b.bytes[i / 8]? with
  | none => simp
  | some v => simp [land_two_pow_ne_zero]

theorem allCompletedAux_iff (full rem : Nat) (l : List Nat) :
    ∀ i, SegmentBitmap.allCompletedAux full rem l i = true ↔
      ∀ p (hp : p < l.length),
        (i + p < full → l.get ⟨p, hp⟩ &&& 255 = 255) ∧
        (i + p = full → 0 < rem →
          l.get ⟨p, hp⟩ &&& ((1 <<< rem) - 1) = (1 <<< rem) - 1) := by
  induction l with
  | nil => intro i; simp [SegmentBitmap.allCompletedAux]
  | cons b rest ih =>
    intro i
    simp only [SegmentBitmap.allCompletedAux]
    by_cases h1 : i < full
    · rw [if_pos h1, Bool.and_eq_true, decide_eq_true_eq, ih (i + 1)]
      constructor
      · rintro ⟨hb, hrest⟩ p hp
        cases p with
        | zero => exact ⟨fun _ => hb, fun heq _ => absurd heq (by omega)⟩
        | succ q =>
          have hq : q < rest.length := by simpa using hp
          have := hrest q hq
          constructor
          · intro hlt
            have := this.1 (by omega)
            simpa using this
          · intro heq hrem
            have := this.2 (by omega) hrem
            simpa using this
      · intro H
        refine ⟨(H 0 (by simp)).1 (by omega), ?_⟩
        intro p hp
        have := H (p + 1) (by simpa using Nat.succ_lt_succ hp)
        constructor
        · intro hlt
          have h' := this.1 (by omega)
          simpa using h'
        · intro heq hrem
          have h' := this.2 (by omega) hrem
          simpa using h'
    · rw [if_neg h1]
      by_cases h2 : i = full ∧ 0 < rem
      · rw [if_pos h2, Bool.and_eq_true, decide_eq_true_eq, ih (i + 1)]
        constructor
        · rintro ⟨hb, hrest⟩ p hp
          cases p with
          | zero =>
            exact ⟨fun hlt => absurd hlt (by omega), fun _ _ => hb⟩
          | succ q =>
            have hq : q < rest.length := by simpa using hp
            have := hrest q hq
            constructor
            · intro hlt
              exact absurd hlt (by omega)
            · intro heq _
              exact absurd heq (by omega)
        · intro H
          refine ⟨(H 0 (by simp)).2 (by omega) h2.2, ?_⟩
          intro p hp
          exact ⟨fun hlt => absurd hlt (by omega),
                 fun heq _ => absurd heq (by omega)⟩
      · rw [if_neg h2]
        simp only [true_iff]
        intro p hp
        cases p with
        | zero =>
          exact ⟨fun hlt => absurd hlt (by omega),
                 fun heq hrem => absurd ⟨by omega, hrem⟩ h2⟩
        | succ q =>
          exact ⟨fun hlt => absurd hlt (by omega),
                 fun heq _ => absurd heq (by omega)⟩

theorem from_bytes_length (bs : List Nat) (n : Nat) :
    (SegmentBitmap.from_bytes bs n).bytes.length = (n + 7) / 8 := by
  unfold SegmentBitmap.from_bytes
  simp only [List.length_append, List.length_take, List.length_replicate]
  omega

theorem to_bytes_from_bytes (bs : List Nat) (n : Nat) :
    (SegmentBitmap.from_bytes bs n).to_bytes n =
      (SegmentBitmap.from_bytes bs n).bytes := by
  unfold SegmentBitmap.to_bytes
  rw [if_pos (Nat.le_of_eq (from_bytes_length bs n).symm)]
  rw [← from_bytes_length bs n, List.take_length]

theorem from_bytes_of_exact (l : List Nat) (n : Nat)
    (hl : l.length = (n + 7) / 8) :
    SegmentBitmap.from_bytes l n = ⟨l⟩ := by
  unfold SegmentBitmap.from_bytes
  congr 1
  rw [hl, Nat.min_self, ← hl, List.take_length, Nat.sub_self]
  simp

theorem all_completed_iff (b : SegmentBitmap) (n : Nat) :
    b.all_completed n = true ↔ ∀ i, i < n → b.is_completed i = true := by
  unfold SegmentBitmap.all_completed
  by_cases hn : n = 0
  · subst hn; simp
  rw [if_neg hn, Bool.and_eq_true, decide_eq_true_eq,
    allCompletedAux_iff (n / 8) (n % 8) b.bytes 0]
  constructor
  · rintro ⟨haux, hlen⟩ i hi
    have hidx : i / 8 < b.bytes.length :=
      Nat.lt_of_lt_of_le (by omega) hlen
    rw [is_completed_iff]
    refine ⟨b.bytes.get ⟨i / 8, hidx⟩, List.getElem?_eq_getElem hidx, ?_⟩
    obtain ⟨hfull, hmask⟩ := haux (i / 8) hidx
    by_cases hf : i / 8 < n / 8
    · have h255 := hfull (by omega)
      rw [show (255 : Nat) = 2 ^ 8 - 1 by norm_num, land_mask_eq_mask] at h255
      exact h255 (i % 8) (Nat.mod_lt _ (by norm_num))
    · have heq : i / 8 = n / 8 := by omega
      have hrem : 0 < n % 8 := by omega
      have hm := hmask (by omega) hrem
      rw [show (1 <<< (n % 8)) - 1 = 2 ^ (n % 8) - 1 by
            rw [Nat.shiftLeft_eq, Nat.one_mul],
          land_mask_eq_mask] at hm
      exact hm (i % 8) (by omega)
  · intro H
    have hlen : (n + 7) / 8 ≤ b.bytes.length := by
      by_contra hlt
      push_neg at hlt
      have h1 := H (n - 1) (by omega)
      rw [is_completed_iff] at h1
      obtain ⟨v, hv, _⟩ := h1
      have : (n - 1) / 8 < b.bytes.length := by
        by_contra hge
        push_neg at hge
        rw [List.getElem?_eq_none hge] at hv
        exact Option.noConfusion hv
      omega
    refine ⟨?_, hlen⟩
    intro p hp
    constructor
    · intro hpf
      rw [show (255 : Nat) = 2 ^ 8 - 1 by norm_num, land_mask_eq_mask]
      intro j hj
      have hin : 8 * p + j < n := by omega
      have h1 := H (8 * p + j) hin
      rw [is_completed_iff] at h1
      obtain ⟨v, hv, ht⟩ := h1
      have hdiv : (8 * p + j) / 8 = p := by omega
      have hmod : (8 * p + j) % 8 = j := by omega
      rw [hdiv, List.getElem?_eq_getElem hp] at hv
      rw [hmod] at ht
      cases hv
      exact ht
    · intro hpf hrem
      rw [show (1 <<< (n % 8)) - 1 = 2 ^ (n % 8) - 1 by
            rw [Nat.shiftLeft_eq, Nat.one_mul],
          land_mask_eq_mask]
      intro j hj
      have hin : 8 * p + j < n := by omega
      have h1 := H (8 * p + j) hin
      rw [is_completed_iff] at h1
      obtain ⟨v, hv, ht⟩ := h1
      have hdiv : (8 * p + j) / 8 = p := by omega
      have hmod : (8 * p + j) % 8 = j := by omega
      rw [hdiv, List.getElem?_eq_getElem hp] at hv
      rw [hmod] at ht
      cases hv
      exact ht

/-- C2: the bitmap round-trip `from_bytes(b.to_bytes(n), n)` preserves every
one of the first `n` bits; serialization produces exactly `⌈n/8⌉` bytes;
and `all_completed(n)` holds iff `is_completed(i)` holds for every
`i < n`. -/
theorem bitmap_roundtrip_and_all_completed (bs : List Nat) (n : Nat)
    (bm : SegmentBitmap) :
    (∀ i, i < n →
      (SegmentBitmap.from_bytes
          ((SegmentBitmap.from_bytes bs n).to_bytes n) n).is_completed i =
        (SegmentBitmap.from_bytes bs n).is_completed i) ∧
    ((SegmentBitmap.from_bytes bs n).to_bytes n).length = (n + 7) / 8 ∧
    (bm.all_completed n = true ↔ ∀ i, i < n → bm.is_completed i = true) := by
  have hrt : SegmentBitmap.from_bytes
      ((SegmentBitmap.from_bytes bs n).to_bytes n) n =
        SegmentBitmap.from_bytes bs n := by
    rw [to_bytes_from_bytes]
    exact from_bytes_of_exact _ n (from_bytes_length bs n)
  refine ⟨fun i _ => by rw [hrt], ?_, all_completed_iff bm n⟩
  rw [to_bytes_from_bytes]
  exact from_bytes_length bs n

/-- Witness for C2 at `bs = [5]`, `n = 3`, and the bitmap `[255]` with 8
segments. -/
theorem bitmap_roundtrip_witness :
    (SegmentBitmap.from_bytes
        ((SegmentBitmap.from_bytes [5] 3).to_bytes 3) 3).is_completed 0 =
      (SegmentBitmap.from_bytes [5] 3).is_completed 0 ∧
    ((SegmentBitmap.mk [255]).all_completed 8 = true ↔
      ∀ i, i < 8 → (SegmentBitmap.mk [255]).is_completed i = true) := by
  have h := bitmap_roundtrip_and_all_completed [5] 3 ⟨[255]⟩
  have h8 := bitmap_roundtrip_and_all_completed [5] 8 ⟨[255]⟩
  exact ⟨h.1 0 (by decide), h8.2.2⟩

/-! ## Safe-resume validation: `safe_resume/validate/mod.rs` -/

/-- `JobState` from `resume_db/types.rs`. -/
inductive JobState where
  | queued | running | paused | completed | error
deriving DecidableEq, Repr

/-- `JobSettings` from `resume_db/types.rs`. -/
structure JobSettings where
  note : Option String
deriving DecidableEq, Repr

/-- `JobDetails` from `resume_db/types.rs` (full job record). -/
structure JobDetails where
  id : Int
  url : String
  final_filename : Option String
  temp_filename : Option String
  total_size : Option Int
  etag : Option String
  last_modified : Option String
  segment_count : Int
  completed_bitmap : List Nat
  state : JobState
  created_at : Int
  updated_at : Int
  settings : JobSettings
deriving DecidableEq, Repr

/-- `HeadResult` from `fetch_head/mod.rs`. -/
structure HeadResult where
  content_length : Option Nat
  accept_ranges : Bool
  etag : Option String
  last_modified : Option String
  content_disposition : Option String
deriving DecidableEq, Repr

/-- `ValidationErrorKind` from `safe_resume/validate/error.rs`. -/
inductive ValidationErrorKind where
  | remoteChanged (etag_changed last_modified_changed size_changed : Bool)
deriving DecidableEq, Repr

/-- `ValidationError` from `safe_resume/validate/error.rs`. -/
structure ValidationError where
  kind : ValidationErrorKind
deriving DecidableEq, Repr

/-- The `u64 as i64` cast used on `head.content_length`. -/
def u64_as_i64 (u : Nat) : Int :=
  if u < 2 ^ 63 then (u : Int) else (u : Int) - 2 ^ 64

/-- The `match (a, b)` comparison used for each validator field in
`validate_for_resume`: both `None` is unchanged, both `Some` compares the
values, mixed presence counts as changed. -/
def optChanged {α : Type} [DecidableEq α] (a b : Option α) : Bool :=
  match a, b with
  | none, none => false
  | some x, some y => decide (x ≠ y)
  | _, _ => true

/-- `validate_for_resume` from `safe_resume/validate/mod.rs`. -/
def validate_for_resume (job : JobDetails) (head : HeadResult) :
    Except ValidationError Unit :=
  let has_stored := job.total_size.isSome || job.etag.isSome ||
    job.last_modified.isSome
  if !has_stored then .ok ()
  else
    let etag_changed := optChanged job.etag head.etag
    let last_modified_changed := optChanged job.last_modified head.last_modified
    let size_changed :=
      optChanged job.total_size (head.content_length.map u64_as_i64)
    if etag_changed || last_modified_changed || size_changed then
      .error ⟨.remoteChanged etag_changed last_modified_changed size_changed⟩
    else .ok ()

/-- The specification's notion of a changed field: both values present and
unequal, or one present and the other missing. -/
def fieldChangedSpec {α : Type} (a b : Option α) : Prop :=
  (∃ x y, a = some x ∧ b = some y ∧ x ≠ y) ∨ a.isSome ≠ b.isSome

theorem optChanged_iff {α : Type} [DecidableEq α] (a b : Option α) :
    optChanged a b = true ↔ fieldChangedSpec a b := by
  cases a <;> cases b <;>
    simp [optChanged, fieldChangedSpec]

/-- C3: a job storing none of total size, ETag, Last-Modified validates Ok;
otherwise validation succeeds iff none of the three fields changed (changed
= both present and unequal, or present on exactly one side, with the stored
size compared against the probed length cast to `i64`), and a validation
error flags exactly the changed fields. -/
theorem validate_for_resume_correct (job : JobDetails) (head : HeadResult) :
    ((job.total_size = none ∧ job.etag = none ∧ job.last_modified = none) →
      validate_for_resume job head = .ok ()) ∧
    (¬ (job.total_size = none ∧ job.etag = none ∧ job.last_modified = none) →
      ((validate_for_resume job head = .ok () ↔
        ¬ fieldChangedSpec job.etag head.etag ∧
        ¬ fieldChangedSpec job.last_modified head.last_modified ∧
        ¬ fieldChangedSpec job.total_size
            (head.content_length.map u64_as_i64)) ∧
      (∀ e l s, validate_for_resume job head =
          .error ⟨.remoteChanged e l s⟩ →
        (e = true ↔ fieldChangedSpec job.etag head.etag) ∧
        (l = true ↔ fieldChangedSpec job.last_modified head.last_modified) ∧
        (s = true ↔ fieldChangedSpec job.total_size
            (head.content_length.map u64_as_i64))))) := by
  constructor
  · rintro ⟨h1, h2, h3⟩
    unfold validate_for_resume
    rw [h1, h2, h3]
    rfl
  · intro hstored
    have hs : (job.total_size.isSome || job.etag.isSome ||
        job.last_modified.isSome) = true := by
      cases h1 : job.total_size <;> cases h2 : job.etag <;>
        cases h3 : job.last_modified <;> simp_all
    unfold validate_for_resume
    rw [hs]
    simp only [Bool.not_true, Bool.false_eq_true, if_false]
    constructor
    · by_cases hc : (optChanged job.etag head.etag ||
          optChanged job.last_modified head.last_modified ||
          optChanged job.total_size (head.content_length.map u64_as_i64)) = true
      · rw [if_pos hc]
        simp only [Bool.or_eq_true] at hc
        constructor
        · intro h; exact Except.noConfusion h
        · rintro ⟨h1, h2, h3⟩
          rw [← optChanged_iff] at h1 h2 h3
          simp only [h1, h2, h3] at hc
          simp at hc
      · rw [if_neg hc]
        simp only [Bool.or_eq_true, not_or] at hc
        obtain ⟨⟨h1, h2⟩, h3⟩ := hc
        rw [Bool.not_eq_true] at h1 h2 h3
        constructor
        · intro _
          refine ⟨?_, ?_, ?_⟩ <;> rw [← optChanged_iff] <;> simp [h1, h2, h3]
        · intro _; rfl
    · intro e l s herr
      by_cases hc : (optChanged job.etag head.etag ||
          optChanged job.last_modified head.last_modified ||
          optChanged job.total_size (head.content_length.map u64_as_i64)) = true
      · rw [if_pos hc] at herr
        injection herr with herr
        have he : e = optChanged job.etag head.etag := by
          have := congrArg ValidationError.kind herr.symm
          cases this; rfl
        have hl : l = optChanged job.last_modified head.last_modified := by
          have := congrArg ValidationError.kind herr.symm
          cases this; rfl
        have hsz : s = optChanged job.total_size
            (head.content_length.map u64_as_i64) := by
          have := congrArg ValidationError.kind herr.symm
          cases this; rfl
        subst he hl hsz
        exact ⟨optChanged_iff _ _, optChanged_iff _ _, optChanged_iff _ _⟩
      · rw [if_neg hc] at herr
        exact Except.noConfusion herr

/-- Witness for C3: a fresh job validates Ok; a job storing size 5 against a
probe reporting length 6 fails with exactly the size flag set. -/
theorem validate_for_resume_witness :
    validate_for_resume
      { id := 1, url := "u", final_filename := none, temp_filename := none,
        total_size := none, etag := none, last_modified := none,
        segment_count := 0, completed_bitmap := [], state := .queued,
        created_at := 0, updated_at := 0, settings := ⟨none⟩ }
      { content_length := some 6, accept_ranges := true, etag := none,
        last_modified := none, content_disposition := none } = .ok () ∧
    ¬ (validate_for_resume
      { id := 1, url := "u", final_filename := none, temp_filename := none,
        total_size := some 5, etag := none, last_modified := none,
        segment_count := 0, completed_bitmap := [], state := .queued,
        created_at := 0, updated_at := 0, settings := ⟨none⟩ }
      { content_length := some 6, accept_ranges := true, etag := none,
        last_modified := none, content_disposition := none } = .ok ()) := by
  constructor
  · exact (validate_for_resume_correct _ _).1 ⟨rfl, rfl, rfl⟩
  · intro hok
    have h := ((validate_for_resume_correct _ _).2 (by simp)).1.mp hok
    refine absurd h.2.2 ?_
    simp only [not_not]
    refine Or.inl ⟨5, u64_as_i64 6, rfl, rfl, ?_⟩
    decide

/-! ## Retry policy: `retry/policy.rs`

Durations are modelled as nanosecond counts; `Duration::saturating_mul`
saturates at `Duration::MAX` = `u64::MAX` seconds + 999 999 999 ns. -/

/-- `ErrorKind` from `retry/policy.rs`. -/
inductive ErrorKind where
  | timeout
  | throttled
  | connection
  | http5xx (code : Nat)
  | other
deriving DecidableEq, Repr

/-- `RetryDecision` from `retry/policy.rs` (delay in nanoseconds). -/
inductive RetryDecision where
  | noRetry
  | retryAfter (delay : Nat)
deriving DecidableEq, Repr

/-- `Duration::MAX` in nanoseconds. -/
def durationMax : Nat := (2 ^ 64 - 1) * 1000000000 + 999999999

/-- `RetryPolicy` (delays in nanoseconds). -/
structure RetryPolicy where
  max_attempts : Nat
  base_delay : Nat
  max_delay : Nat
deriving DecidableEq, Repr

/-- `RetryPolicy::default()`: 5 attempts, 250 ms base delay, 30 s cap. -/
def RetryPolicy.defaultPolicy : RetryPolicy := ⟨5, 250000000, 30000000000⟩

/-- `RetryPolicy::decide`. The exponent is
`1u32.saturating_mul(1 << attempt.saturating_sub(1).min(8))` (which never
saturates since the shift is at most 8); the raw delay is
`base_delay.saturating_mul(exp)` capped at `max_delay`. -/
def RetryPolicy.decide (p : RetryPolicy) (attempt : Nat) (kind : ErrorKind) :
    RetryDecision :=
  if p.max_attempts ≤ attempt then .noRetry
  else match kind with
    | .other => .noRetry
    | _ =>
      .retryAfter
        (min (min (p.base_delay * (1 <<< min (attempt - 1) 8)) durationMax)
          p.max_delay)

/-- C4 counterexample: for the policy (max_attempts 20, base_delay 1 ns,
max_delay 1 s) at attempt 10 on a Timeout, the code returns a 256 ns delay
because the exponent is capped at `2^8`, but the claimed formula
`min(base · 2^(n−1), max_delay)` gives 512 ns. -/
theorem retry_decide_cex :
    RetryPolicy.decide ⟨20, 1, 1000000000⟩ 10 .timeout = .retryAfter 256 ∧
    min (1 * 2 ^ (10 - 1)) 1000000000 = 512 ∧ (256 : Nat) ≠ 512 := by
  refine ⟨?_, by norm_num, by norm_num⟩
  rfl

/-- C4 amended: `decide(n, kind)` is NoRetry exactly when `n ≥ max_attempts`
or the kind is Other; otherwise it is RetryAfter
`min(base_delay · 2^min(n−1, 8), max_delay)` — the exponent saturates at 8.
(The hypothesis `max_delay ≤ Duration::MAX` holds for every real
`Duration`.) -/
theorem retry_decide_correct (p : RetryPolicy) (n : Nat) (kind : ErrorKind)
    (hmax : p.max_delay ≤ durationMax) :
    (p.decide n kind = .noRetry ↔ p.max_attempts ≤ n ∨ kind = .other) ∧
    (n < p.max_attempts → kind ≠ .other →
      p.decide n kind =
        .retryAfter (min (p.base_delay * 2 ^ min (n - 1) 8) p.max_delay)) := by
  have habsorb : ∀ a : Nat, min (min a durationMax) p.max_delay =
      min a p.max_delay := by
    intro a; omega
  constructor
  · unfold RetryPolicy.decide
    by_cases hn : p.max_attempts ≤ n
    · rw [if_pos hn]; simp [hn]
    · rw [if_neg hn]
      cases kind <;> simp [hn]
  · intro hn hk
    unfold RetryPolicy.decide
    rw [if_neg (by omega)]
    have hsh : (1 : Nat) <<< min (n - 1) 8 = 2 ^ min (n - 1) 8 := by
      rw [Nat.shiftLeft_eq, Nat.one_mul]
    cases kind with
    | other => exact absurd rfl hk
    | timeout => rw [hsh, habsorb]
    | throttled => rw [hsh, habsorb]
    | connection => rw [hsh, habsorb]
    | http5xx code => rw [hsh, habsorb]

/-- Witness for the amended C4: the default policy at attempt 2 on Timeout
waits 500 ms. -/
theorem retry_decide_correct_witness :
    RetryPolicy.decide RetryPolicy.defaultPolicy 2 .timeout =
      .retryAfter (min (250000000 * 2 ^ min (2 - 1) 8) 30000000000) := by
  exact (retry_decide_correct RetryPolicy.defaultPolicy 2 .timeout
    (by norm_num [durationMax, RetryPolicy.defaultPolicy])).2
    (by norm_num [RetryPolicy.defaultPolicy]) (by simp)

/-! ## Error classification: `retry/classify.rs` and `retry/error.rs` -/

/-- The predicates of a `curl::Error` queried by `classify_curl_error`. -/
structure CurlError where
  is_operation_timedout : Bool
  is_couldnt_connect : Bool
  is_couldnt_resolve_host : Bool
  is_couldnt_resolve_proxy : Bool
  is_read_error : Bool
  is_recv_error : Bool
  is_send_error : Bool
  is_got_nothing : Bool
deriving DecidableEq, Repr

/-- `SegmentError` from `retry/error.rs` (the current five-variant form;
the `Storage` payload, an `io::Error`, carries no information used by
classification). -/
inductive SegmentError where
  | curl (e : CurlError)
  | http (code : Nat)
  | invalidRangeResponse (code : Nat)
  | partialTransfer (expected received : Nat)
  | storage
deriving DecidableEq, Repr

/-- `classify_http_status` from `retry/classify.rs`. -/
def classify_http_status (code : Nat) : ErrorKind :=
  if code = 429 ∨ code = 503 then .throttled
  else if 500 ≤ code ∧ code ≤ 599 then .http5xx code
  else .other

/-- `classify_curl_error` from `retry/classify.rs`. -/
def classify_curl_error (e : CurlError) : ErrorKind :=
  if e.is_operation_timedout then .timeout
  else if e.is_couldnt_connect || e.is_couldnt_resolve_host ||
      e.is_couldnt_resolve_proxy || e.is_read_error || e.is_recv_error ||
      e.is_send_error || e.is_got_nothing then .connection
  else .other

/-- Modelled from the spec: the `classify` over the five-variant
`SegmentError` of `retry/error.rs` is missing from the source tree — the
tree holds only a stale `classify` in `retry/classify.rs` that matches an
older two-variant `SegmentError` (`Curl`, `Http`). The `curl` and `http`
arms below are that source function's arms; the arms for
`invalidRangeResponse`, `partialTransfer` and `storage` follow the spec's
classification table (partial transfer → Connection, retried; invalid
range response and storage write failure → Other, not retried), consistent
with the doc comments on those variants in `retry/error.rs`. -/
def classify (e : SegmentError) : ErrorKind :=
  match e with
  | .curl ce => classify_curl_error ce
  | .http code => classify_http_status code
  | .invalidRangeResponse _ => .other
  | .partialTransfer _ _ => .connection
  | .storage => .other

/-- C5: HTTP 429 and 503 classify as Throttled; 5xx other than 503 as
Http5xx(code); 4xx other than 429 as Other; a partial transfer (fewer
bytes than the segment length) as Connection; invalid range responses and
storage write failures as Other. -/
theorem classify_correct :
    classify (.http 429) = .throttled ∧
    classify (.http 503) = .throttled ∧
    (∀ c, 500 ≤ c → c ≤ 599 → c ≠ 503 → classify (.http c) = .http5xx c) ∧
    (∀ c, 400 ≤ c → c ≤ 499 → c ≠ 429 → classify (.http c) = .other) ∧
    (∀ e r, r < e → classify (.partialTransfer e r) = .connection) ∧
    (∀ c, classify (.invalidRangeResponse c) = .other) ∧
    classify .storage = .other := by
  refine ⟨rfl, rfl, ?_, ?_, fun _ _ _ => rfl, fun _ => rfl, rfl⟩
  · intro c h1 h2 h3
    simp only [classify, classify_http_status]
    rw [if_neg (by omega), if_pos ⟨h1, h2⟩]
  · intro c h1 h2 h3
    simp only [classify, classify_http_status]
    rw [if_neg (by omega), if_neg (by omega)]

/-- Witness for C5 at statuses 500 and 404 and a 3-of-10-byte partial
transfer. -/
theorem classify_correct_witness :
    classify (.http 500) = .http5xx 500 ∧
    classify (.http 404) = .other ∧
    classify (.partialTransfer 10 3) = .connection := by
  refine ⟨?_, ?_, ?_⟩
  · exact classify_correct.2.2.1 500 (by norm_num) (by norm_num) (by norm_num)
  · exact classify_correct.2.2.2.1 404 (by norm_num) (by norm_num) (by norm_num)
  · exact classify_correct.2.2.2.2.1 10 3 (by norm_num)

/-! ## Adaptive host policy: `host_policy/state/adaptive.rs`

`f64` throughput arithmetic is modelled exactly over `ℚ`; `Instant`
timestamps carry no data and are modelled as `Option Unit`. -/

/-- `HostKey` from `host_policy/key.rs` (`port` is a `u16`). -/
structure HostKey where
  scheme : String
  host : String
  port : Nat
deriving DecidableEq, Repr

/-- `RangeSupport` from `host_policy/entry.rs`. -/
inductive RangeSupport where
  | unknown | supported | notSupported
deriving DecidableEq, Repr

/-- `HostEntry` from `host_policy/entry.rs`. -/
structure HostEntry where
  key : HostKey
  range_support : RangeSupport
  last_throttled_at : Option Unit
  throttled_events : Nat
  last_error_at : Option Unit
  error_events : Nat
  last_success_at : Option Unit
  success_events : Nat
  last_throughput_bytes_per_sec : Option ℚ
  adaptive_segment_limit : Nat
deriving DecidableEq, Repr

/-- `HostEntry::new`. -/
def HostEntry.new (key : HostKey) (default_adaptive_limit : Nat) : HostEntry :=
  ⟨key, .unknown, none, 0, none, 0, none, 0, none, default_adaptive_limit⟩

/-- `default_adaptive_limit`: start at 4, clamped to the config bounds. -/
def default_adaptive_limit (min_segments max_segments : Nat) : Nat :=
  min (max 4 min_segments) max_segments

/-- The halving loop of `recommended_max_segments`:
`recommended = (recommended / 2).max(min_segments.max(1))`, `steps`
times. -/
def halvePenalty (min_segments : Nat) : Nat → Nat → Nat
  | r, 0 => r
  | r, s + 1 => halvePenalty min_segments (max (r / 2) (max min_segments 1)) s

/-- `recommended_max_segments` from `host_policy/state/adaptive.rs`, given
the entry stored for the key (if any). -/
def recommended_max_segments (min_segments max_segments : Nat)
    (entry? : Option HostEntry) : Nat :=
  match entry? with
  | none => max (max max_segments min_segments) 1
  | some e =>
    halvePenalty min_segments (max (max max_segments min_segments) 1)
      (min (e.throttled_events / 3) 3)

/-- `THROUGHPUT_GOOD_BPS` = 1 000 000 bytes/s (called "1 MiB/s" in the
source comment). -/
def throughputGoodBps : ℚ := 1000000

/-- The `bps` computation of `record_job_outcome`:
`bytes_downloaded as f64 / duration.as_secs_f64()` when the duration is
positive, else 0. -/
def bpsOf (bytes durationNs : Nat) : ℚ :=
  if 0 < durationNs then (bytes : ℚ) * 1000000000 / (durationNs : ℚ) else 0

/-- The throughput/counter/timestamp updates of `record_job_outcome`
preceding the limit adjustment (`u32` counter additions saturate at
`2^32 - 1`). -/
def updateCounters (e : HostEntry) (bps : ℚ)
    (throttle_events error_events : Nat) : HostEntry :=
  let e1 := { e with last_throughput_bytes_per_sec := some bps }
  let e2 := if 0 < throttle_events then
      { e1 with
        throttled_events :=
          (min (e1.throttled_events + throttle_events) (2 ^ 32 - 1)),
        last_throttled_at := some () }
    else e1
  if 0 < error_events then
    { e2 with
      error_events := (min (e2.error_events + error_events) (2 ^ 32 - 1)),
      last_error_at := some () }
  else e2

/-- `record_job_outcome` from `host_policy/state/adaptive.rs`, acting on
the entry stored for the URL's key (`entry_mut_for_url` inserts a default
entry when absent). `cap` is computed from the entry as stored before this
outcome's events are added. -/
def record_job_outcome (min_segments max_segments : Nat)
    (entry? : Option HostEntry) (key : HostKey) (bytes durationNs : Nat)
    (throttle_events error_events : Nat) : HostEntry :=
  let cap := recommended_max_segments min_segments max_segments entry?
  let e0 := entry?.getD
    (HostEntry.new key (default_adaptive_limit min_segments max_segments))
  let e3 := updateCounters e0 (bpsOf bytes durationNs)
    throttle_events error_events
  if 0 < throttle_events ∨ 0 < error_events then
    { e3 with adaptive_segment_limit :=
        (min (max (e3.adaptive_segment_limit / 2) (max min_segments 1))
          max_segments) }
  else if throughputGoodBps ≤ bpsOf bytes durationNs then
    { e3 with adaptive_segment_limit :=
        (min (if e3.adaptive_segment_limit < 8 then 8
          else if e3.adaptive_segment_limit < 16 then 16
          else min max_segments 16) cap) }
  else e3

theorem updateCounters_limit (e : HostEntry) (bps : ℚ)
    (throttle_events error_events : Nat) :
    (updateCounters e bps throttle_events error_events).adaptive_segment_limit
      = e.adaptive_segment_limit := by
  simp only [updateCounters]
  split_ifs <;> rfl

theorem halvePenalty_ge (min_segments : Nat) :
    ∀ s r, min_segments ≤ r →
      min_segments ≤ halvePenalty min_segments r s := by
  intro s
  induction s with
  | zero => intro r hr; exact hr
  | succ s ih =>
    intro r _
    exact ih _ (le_trans (Nat.le_max_left _ _) (Nat.le_max_right _ _))

theorem recommended_ge_min (min_segments max_segments : Nat)
    (entry? : Option HostEntry) :
    min_segments ≤
      recommended_max_segments min_segments max_segments entry? := by
  cases entry? with
  | none =>
    exact le_trans (Nat.le_max_right _ _) (Nat.le_max_left _ _)
  | some e =>
    exact halvePenalty_ge min_segments _ _
      (le_trans (Nat.le_max_right _ _) (Nat.le_max_left _ _))

/-- C6 counterexample: host bounds `[1, 32]`, an entry with no recorded
throttling (so `cap = 32`) and current limit 16, and a clean run at
1 GB/s. The claim's step-up schedule gives `max(cap, 16) = 32`, but the
code steps to `min(min(max_segments, 16), cap) = 16`. -/
theorem record_job_outcome_cex :
    (record_job_outcome 1 32
        (some ⟨⟨"http", "example.com", 80⟩, .unknown, none, 0, none, 0,
          none, 0, none, 16⟩)
        ⟨"http", "example.com", 80⟩ 1000000000 1000000000 0
        0).adaptive_segment_limit = 16 ∧
    max (recommended_max_segments 1 32
        (some ⟨⟨"http", "example.com", 80⟩, .unknown, none, 0, none, 0,
          none, 0, none, 16⟩)) 16 = 32 ∧
    (16 : Nat) ≠ 32 := by
  refine ⟨?_, by decide, by decide⟩
  have hbps : throughputGoodBps ≤ bpsOf 1000000000 1000000000 := by
    rw [bpsOf, if_pos (by norm_num)]
    rw [throughputGoodBps]
    norm_num
  simp only [record_job_outcome, Option.getD_some, if_neg
    (by simp : ¬ ((0:Nat) < 0 ∨ (0:Nat) < 0)), if_pos hbps,
    updateCounters_limit]
  decide

/-- C6 amended: on a run with `throttled > 0` or `errored > 0` the adaptive
limit becomes `min(max(old/2, min_segments), max_segments)` (halved, clamped
to the config range, assuming the `HostPolicy` invariant
`1 ≤ min_segments ≤ max_segments` enforced by its constructors); on a clean
run with `bps ≥ 10^6` bytes/s the limit steps to
`min(next, cap)` with `next = 8` when the limit is below 8, `16` when below
16, else `min(max_segments, 16)`, where `cap` is the recommended maximum
computed from the throttling events recorded before this outcome (halving
once per full group of three events, at most three times, never below
`min_segments`); otherwise the limit is unchanged. -/
theorem record_job_outcome_correct (minSeg maxSeg : Nat) (e : HostEntry)
    (key : HostKey) (bytes durationNs throttle_events error_events : Nat)
    (hmin : 1 ≤ minSeg) (hmm : minSeg ≤ maxSeg) :
    ((0 < throttle_events ∨ 0 < error_events) →
      (record_job_outcome minSeg maxSeg (some e) key bytes durationNs
          throttle_events error_events).adaptive_segment_limit =
        min (max (e.adaptive_segment_limit / 2) minSeg) maxSeg ∧
      minSeg ≤ (record_job_outcome minSeg maxSeg (some e) key bytes
          durationNs throttle_events error_events).adaptive_segment_limit ∧
      (record_job_outcome minSeg maxSeg (some e) key bytes durationNs
          throttle_events error_events).adaptive_segment_limit ≤ maxSeg) ∧
    (throttle_events = 0 → error_events = 0 →
      throughputGoodBps ≤ bpsOf bytes durationNs →
      (record_job_outcome minSeg maxSeg (some e) key bytes durationNs
          throttle_events error_events).adaptive_segment_limit =
        min (if e.adaptive_segment_limit < 8 then 8
          else if e.adaptive_segment_limit < 16 then 16
          else min maxSeg 16)
          (recommended_max_segments minSeg maxSeg (some e))) ∧
    (throttle_events = 0 → error_events = 0 →
      bpsOf bytes durationNs < throughputGoodBps →
      (record_job_outcome minSeg maxSeg (some e) key bytes durationNs
          throttle_events error_events).adaptive_segment_limit =
        e.adaptive_segment_limit) ∧
    minSeg ≤ recommended_max_segments minSeg maxSeg (some e) := by
  have hms : max minSeg 1 = minSeg := Nat.max_eq_left hmin
  refine ⟨?_, ?_, ?_, recommended_ge_min minSeg maxSeg (some e)⟩
  · intro h
    have hl : (record_job_outcome minSeg maxSeg (some e) key bytes durationNs
        throttle_events error_events).adaptive_segment_limit =
        min (max (e.adaptive_segment_limit / 2) minSeg) maxSeg := by
      simp only [record_job_outcome, Option.getD_some, if_pos h,
        updateCounters_limit, hms]
    refine ⟨hl, ?_, ?_⟩ <;> rw [hl] <;> omega
  · intro ht he hbps
    subst ht he
    simp only [record_job_outcome, Option.getD_some,
      if_neg (by simp : ¬ ((0:Nat) < 0 ∨ (0:Nat) < 0)), if_pos hbps,
      updateCounters_limit]
  · intro ht he hbps
    subst ht he
    simp only [record_job_outcome, Option.getD_some,
      if_neg (by simp : ¬ ((0:Nat) < 0 ∨ (0:Nat) < 0)),
      if_neg (not_le.mpr hbps)]
    simp only [updateCounters]
    split_ifs <;> rfl

/-- Witness for the amended C6: bounds `[1, 32]`, limit 16, one throttle
event halves the limit to 8. -/
theorem record_job_outcome_correct_witness :
    (record_job_outcome 1 32
        (some ⟨⟨"http", "example.com", 80⟩, .unknown, none, 0, none, 0,
          none, 0, none, 16⟩)
        ⟨"http", "example.com", 80⟩ 0 1 1 0).adaptive_segment_limit =
      min (max (16 / 2) 1) 32 := by
  exact (record_job_outcome_correct 1 32
    ⟨⟨"http", "example.com", 80⟩, .unknown, none, 0, none, 0, none, 0,
      none, 16⟩
    ⟨"http", "example.com", 80⟩ 0 1 1 0 (by norm_num) (by norm_num)).1
    (Or.inl (by norm_num)) |>.1

/-! ## Global connection budget: `scheduler/budget.rs`

The atomic counter is modelled by its sequential effect: the CAS loop of
`reserve` commits `min(requested, available, max_total)` in one step, and
`release` subtracts `min(n, in_use)`. -/

/-- `GlobalConnectionBudget`: capacity and current `in_use` counter. -/
structure GlobalConnectionBudget where
  max_total : Nat
  in_use : Nat
deriving DecidableEq, Repr

/-- `GlobalConnectionBudget::new`: `max_total.max(1)`, counter 0. -/
def GlobalConnectionBudget.new (max_total : Nat) : GlobalConnectionBudget :=
  ⟨max max_total 1, 0⟩

/-- `GlobalConnectionBudget::available`. -/
def GlobalConnectionBudget.available (b : GlobalConnectionBudget) : Nat :=
  b.max_total - b.in_use

/-- `GlobalConnectionBudget::reserve`: returns the granted count and the
updated budget. -/
def GlobalConnectionBudget.reserve (b : GlobalConnectionBudget)
    (requested : Nat) : Nat × GlobalConnectionBudget :=
  (min (min requested (b.max_total - b.in_use)) b.max_total,
    { b with in_use :=
        b.in_use + min (min requested (b.max_total - b.in_use)) b.max_total })

/-- `GlobalConnectionBudget::release`:
`fetch_sub(n.min(in_use))`. -/
def GlobalConnectionBudget.release (b : GlobalConnectionBudget) (n : Nat) :
    GlobalConnectionBudget :=
  { b with in_use := b.in_use - min n b.in_use }

/-- One budget operation of a client trace. -/
inductive BudgetOp where
  | reserve (requested : Nat)
  | release (n : Nat)
deriving DecidableEq, Repr

/-- Run a trace of budget operations. -/
def runOps (b : GlobalConnectionBudget) : List BudgetOp →
    GlobalConnectionBudget
  | [] => b
  | .reserve r :: rest => runOps (b.reserve r).2 rest
  | .release n :: rest => runOps (b.release n) rest

theorem runOps_max_total (ops : List BudgetOp) :
    ∀ b : GlobalConnectionBudget, (runOps b ops).max_total = b.max_total := by
  induction ops with
  | nil => intro b; rfl
  | cons op rest ih =>
    intro b
    cases op with
    | reserve r => exact ih _
    | release n => exact ih _

theorem runOps_invariant (ops : List BudgetOp) :
    ∀ b : GlobalConnectionBudget, b.in_use ≤ b.max_total →
      (runOps b ops).in_use ≤ (runOps b ops).max_total := by
  induction ops with
  | nil => intro b hb; exact hb
  | cons op rest ih =>
    intro b hb
    cases op with
    | reserve r =>
      refine ih _ ?_
      show b.in_use + min (min r (b.max_total - b.in_use)) b.max_total ≤
        b.max_total
      omega
    | release n =>
      refine ih _ ?_
      show b.in_use - min n b.in_use ≤ b.max_total
      omega

/-- C7: under any sequence of reserve/release operations starting from
`new(max_total)` the counter stays within `[0, max_total]` (`max_total` is
forced to at least 1 by the constructor); each `reserve(r)` grants exactly
`min(r, max_total − in_use)`; and `release(reserve(r))` restores `in_use`
to its prior value. -/
theorem budget_correct (max_total r : Nat) (b : GlobalConnectionBudget)
    (ops : List BudgetOp) :
    (runOps (GlobalConnectionBudget.new max_total) ops).in_use ≤
      (GlobalConnectionBudget.new max_total).max_total ∧
    (1 ≤ max_total →
      (GlobalConnectionBudget.new max_total).max_total = max_total) ∧
    (b.reserve r).1 = min r (b.max_total - b.in_use) ∧
    ((b.reserve r).2.release (b.reserve r).1).in_use = b.in_use := by
  refine ⟨?_, ?_, ?_, ?_⟩
  · have h := runOps_invariant ops (GlobalConnectionBudget.new max_total)
      (by show (0 : Nat) ≤ max max_total 1; omega)
    rwa [runOps_max_total] at h
  · intro h
    show max max_total 1 = max_total
    omega
  · show min (min r (b.max_total - b.in_use)) b.max_total =
      min r (b.max_total - b.in_use)
    omega
  · show b.in_use + min (min r (b.max_total - b.in_use)) b.max_total -
      min (min (min r (b.max_total - b.in_use)) b.max_total)
        (b.in_use + min (min r (b.max_total - b.in_use)) b.max_total) =
      b.in_use
    omega

/-- Witness for C7: capacity 16, one reserve of 10 then its release. -/
theorem budget_correct_witness :
    (GlobalConnectionBudget.new 16).max_total = 16 ∧
    ((GlobalConnectionBudget.new 16).reserve 10).1 =
      min 10 ((GlobalConnectionBudget.new 16).max_total -
        (GlobalConnectionBudget.new 16).in_use) := by
  have h := budget_correct 16 10 (GlobalConnectionBudget.new 16)
    [.reserve 10, .release 10]
  exact ⟨h.2.1 (by norm_num), h.2.2.1⟩

/-! ## Best-effort metadata probe: `fetch_head/mod.rs`

The two network probes are external effects; `probe_best_effort` is
embedded as a function of their outcomes (`Except Unit` stands for
`anyhow::Result`, whose error payload is irrelevant to the merge). -/

/-- `probe_best_effort` from `fetch_head/mod.rs`, given the outcome of the
HEAD probe and of the `Range: bytes=0-0` GET probe. -/
def probe_best_effort (head range0 : Except Unit HeadResult) :
    Except Unit HeadResult :=
  match head with
  | .ok r =>
    if r.accept_ranges && r.content_length.isSome then .ok r
    else
      match range0 with
      | .ok r2 =>
        .ok { accept_ranges := r.accept_ranges || r2.accept_ranges,
              content_length := r.content_length.or r2.content_length,
              content_disposition :=
                r.content_disposition.or r2.content_disposition,
              etag := r.etag.or r2.etag,
              last_modified := r.last_modified.or r2.last_modified }
      | .error _ => .ok r
  | .error _ => range0

/-- C9 counterexample: head succeeds without range support but with length
100; the range probe succeeds with range support and length 200. The code
keeps the head's length 100, while the claim says the range probe's length
200 wins. -/
theorem probe_best_effort_cex :
    probe_best_effort
        (.ok { content_length := some 100, accept_ranges := false,
               etag := none, last_modified := none,
               content_disposition := none })
        (.ok { content_length := some 200, accept_ranges := true,
               etag := none, last_modified := none,
               content_disposition := none }) =
      .ok { content_length := some 100, accept_ranges := true,
            etag := none, last_modified := none,
            content_disposition := none } ∧
    some (100 : Nat) ≠ some 200 := by
  exact ⟨rfl, by simp⟩

/-- C9 amended: when the head probe succeeds but its result lacks range
support or content length, and the range probe also succeeds, the merged
result ORs the two range-support flags, and takes each of content length,
ETag, Last-Modified and Content-Disposition from the head result, filling
it from the range probe only when the head result lacks it. -/
theorem probe_best_effort_merge (r r2 : HeadResult)
    (hlack : ¬ (r.accept_ranges = true ∧ r.content_length.isSome = true)) :
    probe_best_effort (.ok r) (.ok r2) =
      .ok { accept_ranges := r.accept_ranges || r2.accept_ranges,
            content_length := r.content_length.or r2.content_length,
            etag := r.etag.or r2.etag,
            last_modified := r.last_modified.or r2.last_modified,
            content_disposition :=
              r.content_disposition.or r2.content_disposition } := by
  have hcond : (r.accept_ranges && r.content_length.isSome) = false := by
    cases ha : r.accept_ranges <;> cases hc : r.content_length.isSome <;>
      simp_all
  simp only [probe_best_effort, hcond, Bool.false_eq_true, if_false]

/-- Witness for the amended C9: head has no length, the range probe fills
in length 50 and the head's validators win where present. -/
theorem probe_best_effort_merge_witness :
    probe_best_effort
        (.ok { content_length := none, accept_ranges := true,
               etag := some "h", last_modified := none,
               content_disposition := none })
        (.ok { content_length := some 50, accept_ranges := false,
               etag := some "r", last_modified := some "lm",
               content_disposition := none }) =
      .ok { content_length := some 50, accept_ranges := true,
            etag := some "h", last_modified := some "lm",
            content_disposition := none } := by
  have h := probe_best_effort_merge
    { content_length := none, accept_ranges := true, etag := some "h",
      last_modified := none, content_disposition := none }
    { content_length := some 50, accept_ranges := false, etag := some "r",
      last_modified := some "lm", content_disposition := none }
    (by simp)
  simpa using h

/-! ## Host key persistence: `host_policy/key.rs`

`to_string_key` renders `"scheme:host:port"` (`format!` renders the `u16`
port in decimal); `from_string_key` splits with `splitn(3, ':')` and parses
the third part with `str::parse::<u16>`. -/

/-- Fuelled decimal rendering of a positive number (the digits of
`n`, most significant first, prepended to `acc`). -/
def natToCharsAux : Nat → Nat → List Char → List Char
  | 0, _, acc => acc
  | fuel + 1, n, acc =>
    if n = 0 then acc
    else natToCharsAux fuel (n / 10) (Char.ofNat (48 + n % 10) :: acc)

/-- Decimal rendering of a `Nat`, as `format!("{}")` produces it. -/
def natToChars (n : Nat) : List Char :=
  if n = 0 then [Char.ofNat 48] else natToCharsAux (n + 1) n []

/-- One decimal digit of a character, if it is one. -/
def digitVal? (c : Char) : Option Nat :=
  if Char.ofNat 48 ≤ c ∧ c ≤ Char.ofNat 57 then some (c.toNat - 48)
  else none

/-- Accumulating decimal parse: fails on the first non-digit. -/
def parseDigitsAux : List Char → Nat → Option Nat
  | [], acc => some acc
  | c :: rest, acc =>
    match digitVal? c with
    | some d => parseDigitsAux rest (acc * 10 + d)
    | none => none

/-- `str::parse::<u16>`: optional sign, one or more digits, value at most
65535. A `-` sign succeeds only on all-zero digit strings (the checked
negation of `from_str_radix` underflows on any positive digit). -/
def parse_u16 (s : List Char) : Option Nat :=
  match s with
  | [] => none
  | c :: t =>
    if c = Char.ofNat 43 then
      if t = [] then none
      else
        match parseDigitsAux t 0 with
        | some v => if v ≤ 65535 then some v else none
        | none => none
    else if c = Char.ofNat 45 then
      if t = [] then none
      else
        match parseDigitsAux t 0 with
        | some 0 => some 0
        | _ => none
    else
      match parseDigitsAux (c :: t) 0 with
      | some v => if v ≤ 65535 then some v else none
      | none => none

/-- Split at the first `':'`, if any. -/
def splitFirstColon : List Char → Option (List Char × List Char)
  | [] => none
  | c :: rest =>
    if c = ':' then some ([], rest)
    else
      match splitFirstColon rest with
      | none => none
      | some (a, b) => some (c :: a, b)

/-- Rust's `splitn(3, ':')`: at most three parts, the third keeps any
further colons. -/
def splitn3Colon (s : List Char) : List (List Char) :=
  match splitFirstColon s with
  | none => [s]
  | some (a, rest) =>
    match splitFirstColon rest with
    | none => [a, rest]
    | some (b, c) => [a, b, c]

/-- `HostKey::to_string_key`: `format!("{}:{}:{}", scheme, host, port)`. -/
def HostKey.to_string_key (k : HostKey) : String :=
  k.scheme ++ ":" ++ k.host ++ ":" ++ String.mk (natToChars k.port)

/-- `HostKey::from_string_key`. -/
def HostKey.from_string_key (s : String) : Option HostKey :=
  match splitn3Colon s.toList with
  | [a, b, c] =>
    match parse_u16 c with
    | some port => some ⟨String.mk a, String.mk b, port⟩
    | none => none
  | _ => none

/-- The key filtering of `from_snapshot`
(`host_policy/state/snapshot.rs`): persisted entries whose string key
fails `from_string_key` are silently dropped. -/
def snapshot_restored_keys (entries : List String) : List HostKey :=
  entries.filterMap HostKey.from_string_key

theorem digit_char_spec : ∀ d, d < 10 →
    digitVal? (Char.ofNat (48 + d)) = some d ∧
    Char.ofNat (48 + d) ≠ ':' ∧
    Char.ofNat (48 + d) ≠ Char.ofNat 43 ∧
    Char.ofNat (48 + d) ≠ Char.ofNat 45 := by decide

theorem natToCharsAux_zero (fuel : Nat) (acc : List Char) :
    natToCharsAux fuel 0 acc = acc := by
  cases fuel <;> simp [natToCharsAux]

theorem natToCharsAux_acc (fuel : Nat) :
    ∀ n acc, natToCharsAux fuel n acc = natToCharsAux fuel n [] ++ acc := by
  induction fuel with
  | zero => intro n acc; simp [natToCharsAux]
  | succ fuel ih =>
    intro n acc
    by_cases hn : n = 0
    · simp [natToCharsAux, hn]
    · simp only [natToCharsAux, if_neg hn]
      rw [ih (n / 10) (Char.ofNat (48 + n % 10) :: acc),
        ih (n / 10) [Char.ofNat (48 + n % 10)]]
      simp

theorem natToCharsAux_fuel (n : Nat) :
    ∀ f1 f2, n ≤ f1 → n ≤ f2 →
      natToCharsAux f1 n [] = natToCharsAux f2 n [] := by
  induction n using Nat.strong_induction_on with
  | _ n ih =>
    intro f1 f2 h1 h2
    by_cases hn : n = 0
    · subst hn; rw [natToCharsAux_zero, natToCharsAux_zero]
    · obtain ⟨g1, rfl⟩ : ∃ g1, f1 = g1 + 1 := ⟨f1 - 1, by omega⟩
      obtain ⟨g2, rfl⟩ : ∃ g2, f2 = g2 + 1 := ⟨f2 - 1, by omega⟩
      simp only [natToCharsAux, if_neg hn]
      have hdiv : n / 10 < n := Nat.div_lt_self (by omega) (by omega)
      rw [natToCharsAux_acc g1, natToCharsAux_acc g2,
        ih (n / 10) hdiv g1 g2 (by omega) (by omega)]

theorem natToChars_lt10 (n : Nat) (h1 : 0 < n) (h2 : n < 10) :
    natToChars n = [Char.ofNat (48 + n)] := by
  unfold natToChars
  rw [if_neg (by omega)]
  show natToCharsAux (n + 1) n [] = _
  simp only [natToCharsAux, if_neg (by omega : ¬ n = 0)]
  rw [Nat.div_eq_of_lt h2, natToCharsAux_zero, Nat.mod_eq_of_lt h2]

theorem natToChars_ge10 (n : Nat) (h : 10 ≤ n) :
    natToChars n = natToChars (n / 10) ++ [Char.ofNat (48 + n % 10)] := by
  have hd : 0 < n / 10 := Nat.div_pos h (by omega)
  have hLHS : natToChars n =
      natToCharsAux n (n / 10) [Char.ofNat (48 + n % 10)] := by
    unfold natToChars
    rw [if_neg (by omega)]
    simp only [natToCharsAux, if_neg (by omega : ¬ n = 0)]
  have hRHS : natToChars (n / 10) = natToCharsAux (n / 10 + 1) (n / 10) [] := by
    unfold natToChars
    rw [if_neg (by omega)]
  rw [hLHS, hRHS, natToCharsAux_acc n (n / 10),
    natToCharsAux_fuel (n / 10) n (n / 10 + 1)
      (le_of_lt (Nat.div_lt_self (by omega) (by omega))) (Nat.le_succ _)]

theorem parseDigitsAux_append (l1 l2 : List Char) :
    ∀ acc, parseDigitsAux (l1 ++ l2) acc =
      match parseDigitsAux l1 acc with
      | some v => parseDigitsAux l2 v
      | none => none := by
  induction l1 with
  | nil => intro acc; simp [parseDigitsAux]
  | cons c t ih =>
    intro acc
    simp only [List.cons_append, parseDigitsAux]
    cases digitVal? c with
    | none => rfl
    | some d => exact ih (acc * 10 + d)

theorem parse_natToChars (p : Nat) :
    parseDigitsAux (natToChars p) 0 = some p := by
  induction p using Nat.strong_induction_on with
  | _ p ih =>
    by_cases h0 : p = 0
    · subst h0
      show parseDigitsAux [Char.ofNat 48] 0 = some 0
      have := (digit_char_spec 0 (by omega)).1
      simp only [parseDigitsAux, Nat.add_zero] at this ⊢
      rw [this]
    by_cases h10 : p < 10
    · rw [natToChars_lt10 p (by omega) h10]
      have hd := (digit_char_spec p h10).1
      simp only [parseDigitsAux, hd]
      norm_num
    · rw [natToChars_ge10 p (by omega), parseDigitsAux_append]
      rw [ih (p / 10) (Nat.div_lt_self (by omega) (by omega))]
      have hd := (digit_char_spec (p % 10) (Nat.mod_lt _ (by omega))).1
      simp only [parseDigitsAux, hd]
      congr 1
      omega

theorem natToChars_all_digits (p : Nat) :
    ∀ c ∈ natToChars p, ∃ d, d < 10 ∧ c = Char.ofNat (48 + d) := by
  induction p using Nat.strong_induction_on with
  | _ p ih =>
    intro c hc
    by_cases h0 : p = 0
    · subst h0
      simp only [natToChars, if_pos rfl, List.mem_singleton] at hc
      exact ⟨0, by omega, by simpa using hc⟩
    by_cases h10 : p < 10
    · rw [natToChars_lt10 p (by omega) h10, List.mem_singleton] at hc
      exact ⟨p, h10, hc⟩
    · rw [natToChars_ge10 p (by omega), List.mem_append] at hc
      rcases hc with hc | hc
      · exact ih (p / 10) (Nat.div_lt_self (by omega) (by omega)) c hc
      · rw [List.mem_singleton] at hc
        exact ⟨p % 10, Nat.mod_lt _ (by omega), hc⟩

theorem natToChars_ne_nil (p : Nat) : natToChars p ≠ [] := by
  by_cases h0 : p = 0
  · subst h0; simp [natToChars]
  by_cases h10 : p < 10
  · rw [natToChars_lt10 p (by omega) h10]; simp
  · rw [natToChars_ge10 p (by omega)]; simp

theorem parse_u16_natToChars (p : Nat) (hp : p ≤ 65535) :
    parse_u16 (natToChars p) = some p := by
  obtain ⟨c, t, hct⟩ : ∃ c t, natToChars p = c :: t := by
    cases h : natToChars p with
    | nil => exact absurd h (natToChars_ne_nil p)
    | cons c t => exact ⟨c, t, rfl⟩
  have hcmem : c ∈ natToChars p := by rw [hct]; simp
  obtain ⟨d, hd, hcd⟩ := natToChars_all_digits p c hcmem
  have hspec := digit_char_spec d hd
  rw [hct]
  show parse_u16 (c :: t) = some p
  simp only [parse_u16]
  rw [if_neg (hcd ▸ hspec.2.2.1), if_neg (hcd ▸ hspec.2.2.2)]
  rw [← hct, parse_natToChars p]
  simp [hp]

theorem splitFirstColon_no (a : List Char) (ha : ':' ∉ a) :
    splitFirstColon a = none := by
  induction a with
  | nil => rfl
  | cons c t ih =>
    have hc : ¬ c = ':' := fun h => ha (h ▸ List.mem_cons_self c t)
    have ht : ':' ∉ t := fun h => ha (List.mem_cons_of_mem c h)
    simp only [splitFirstColon, if_neg hc, ih ht]

theorem splitFirstColon_yes (a b : List Char) (ha : ':' ∉ a) :
    splitFirstColon (a ++ ':' :: b) = some (a, b) := by
  induction a with
  | nil => simp [splitFirstColon]
  | cons c t ih =>
    have hc : ¬ c = ':' := fun h => ha (h ▸ List.mem_cons_self c t)
    have ht : ':' ∉ t := fun h => ha (List.mem_cons_of_mem c h)
    show (if c = ':' then some ([], t ++ ':' :: b)
      else match splitFirstColon (t ++ ':' :: b) with
        | none => none
        | some (a, b) => some (c :: a, b)) = some (c :: t, b)
    rw [if_neg hc, ih ht]

theorem to_string_key_data (k : HostKey) :
    (k.to_string_key).toList =
      k.scheme.toList ++ ':' ::
        (k.host.toList ++ ':' :: natToChars k.port) := by
  show (k.scheme ++ ":" ++ k.host ++ ":" ++ String.mk
    (natToChars k.port)).data = _
  simp only [String.data_append, String.toList]
  simp [List.append_assoc]

/-- C10: for every host key whose scheme and host contain no `':'` and
whose port is a valid `u16`, `from_string_key(to_string_key(key))` returns
the identical key; but for the IPv6-style host `::1` the round-trip
returns `none`, so `from_snapshot` silently drops that host's persisted
entry on restore. -/
theorem host_key_roundtrip (k : HostKey)
    (hs : ':' ∉ k.scheme.toList) (hh : ':' ∉ k.host.toList)
    (hp : k.port < 65536) :
    HostKey.from_string_key k.to_string_key = some k ∧
    HostKey.from_string_key
      (HostKey.to_string_key ⟨"http", "::1", 8080⟩) = none ∧
    snapshot_restored_keys
      [HostKey.to_string_key ⟨"http", "::1", 8080⟩] = [] := by
  refine ⟨?_, by rfl, by rfl⟩
  have h1 : splitn3Colon ((k.to_string_key).toList) =
      [k.scheme.toList, k.host.toList, natToChars k.port] := by
    rw [to_string_key_data k]
    simp only [splitn3Colon, splitFirstColon_yes _ _ hs,
      splitFirstColon_yes _ _ hh]
  simp only [HostKey.from_string_key, h1,
    parse_u16_natToChars k.port (by omega)]
  rfl

/-- Witness for C10 at `http://example.com:8080`. -/
theorem host_key_roundtrip_witness :
    HostKey.from_string_key
      (HostKey.to_string_key ⟨"http", "example.com", 8080⟩) =
      some ⟨"http", "example.com", 8080⟩ :=
  (host_key_roundtrip ⟨"http", "example.com", 8080⟩ (by decide) (by decide)
    (by norm_num)).1

end Ddm
